import Mathlib

/-!
Verification of the SAMoS defect-tracking module (`utils/Defects.py`).

The Python code is shallowly embedded over the real numbers: numpy float
arrays become functions `ℕ → Vec3` (or lists of reals), float arithmetic
becomes real arithmetic, and Python exceptions become `Except String`.
Python 2's built-in `round` (round half away from zero) composed with
`int(...)` is embedded as `pyround`.
-/

open Real

/-- A 3-component vector, as used for positions, directors, velocity
directions and normals (`numpy` arrays of shape (3,)). -/
@[ext]
structure Vec3 where
  x : ℝ
  y : ℝ
  z : ℝ

namespace Vec3

/-- `np.dot` on 3-vectors. -/
def dot (u v : Vec3) : ℝ := u.x * v.x + u.y * v.y + u.z * v.z

/-- `np.cross` on 3-vectors. -/
def cross (u v : Vec3) : Vec3 :=
  ⟨u.y * v.z - u.z * v.y, u.z * v.x - u.x * v.z, u.x * v.y - u.y * v.x⟩

/-- Componentwise sum of two vectors. -/
def vadd (u v : Vec3) : Vec3 := ⟨u.x + v.x, u.y + v.y, u.z + v.z⟩

/-- Scalar multiple of a vector. -/
noncomputable def smul (c : ℝ) (v : Vec3) : Vec3 := ⟨c * v.x, c * v.y, c * v.z⟩

/-- Componentwise negation. -/
def vneg (v : Vec3) : Vec3 := ⟨-v.x, -v.y, -v.z⟩

/-- The zero vector. -/
def zero : Vec3 := ⟨0, 0, 0⟩

/-- Sum of a list of vectors (`np.sum(..., axis=0)`). -/
def vsum (l : List Vec3) : Vec3 := l.foldr vadd zero

/-- `list(v)`: the components of a vector as a Python list. -/
def toList (v : Vec3) : List ℝ := [v.x, v.y, v.z]

theorem dot_comm (u v : Vec3) : dot u v = dot v u := by
  unfold dot; ring

theorem cross_antisymm (u v : Vec3) : cross u v = vneg (cross v u) := by
  unfold cross vneg; ext <;> dsimp <;> ring

theorem dot_vneg_right (u v : Vec3) : dot u (vneg v) = -dot u v := by
  unfold dot vneg; dsimp; ring

end Vec3

open Vec3

/-- Python 2's `int(round(x))`: rounding half away from zero, then
conversion to an integer (the rounded value is already integral). -/
noncomputable def pyround (x : ℝ) : ℤ :=
  if 0 ≤ x then ⌊x + 1 / 2⌋ else -⌊-x + 1 / 2⌋

theorem pyround_neg (x : ℝ) : pyround (-x) = -pyround x := by
  unfold pyround
  rcases lt_trichotomy x 0 with h | h | h
  · rw [if_neg (not_le.mpr h), if_pos (by linarith [h.le] : (0:ℝ) ≤ -x), neg_neg]
  · subst h; norm_num
  · rw [if_pos h.le, if_neg (by simpa using not_le.mpr (neg_lt_zero.mpr h)), neg_neg]

/-- A float that may be IEEE NaN: `none` models NaN, `some x` a real value.
Dot and cross products of genuinely real inputs are never NaN, but the
nematic algorithm guards against NaN operands (lines 139-147 / 157-164). -/
def NF : Type := Option ℝ

/-- Lines 139-142 of `Defects.py`, applied to `stheta`:
`if abs(stheta)>1: stheta=np.sign(stheta)` (for a NaN, `abs(stheta)>1` is
false) followed by `if np.isnan(stheta): stheta=0`. -/
noncomputable def guardS (s : NF) : ℝ :=
  match s with
  | none => 0
  | some v => if 1 < |v| then Real.sign v else v

/-- Lines 143-144 of `Defects.py`: `if np.isnan(ctheta): ctheta=1`. -/
def guardC (c : NF) : ℝ :=
  match c with
  | none => 1
  | some v => v

/-- Line 145 of `Defects.py`: `theta=np.arcsin(stheta*np.sign(ctheta))`,
applied after the two guards. -/
noncomputable def safeTheta (c s : NF) : ℝ :=
  Real.arcsin (guardS s * Real.sign (guardC c))

/-- The geometry provider (`conf.geom`), an external collaborator: only the
fields and methods read by `Defects.py` are modelled. -/
structure Geom where
  periodic : Bool
  manifold : String
  R : ℝ
  ApplyPeriodic12 : Vec3 → Vec3 → Vec3
  UnitNormal : (ℕ → Vec3) → (ℕ → Vec3)

/-- The configuration snapshot (`conf`): positions `rval`, directors
`nval`, unit velocities `vhat`, and the geometry. -/
structure Conf where
  rval : ℕ → Vec3
  nval : ℕ → Vec3
  vhat : ℕ → Vec3
  geom : Geom

/-- The `Defects` object state (class `Defects`). -/
structure Defects where
  LoopList : List (List ℕ)
  conf : Conf
  normal : ℕ → Vec3
  numdefect_n : ℕ
  numdefect_v : ℕ
  defects_n : List (List ℝ)
  defects_v : List (List ℝ)
  printnow : Bool

/-- `Defects.__init__(tess, conf)` (lines 34-45): caches the loop list and
the unit-normal field and zeroes the result storage. -/
def Defects.init (loopList : List (List ℕ)) (conf : Conf) : Defects :=
  { LoopList := loopList
    conf := conf
    normal := conf.geom.UnitNormal conf.rval
    numdefect_n := 0
    numdefect_v := 0
    defects_n := []
    defects_v := []
    printnow := false }

/-- One transition `t0 → t` of the loop walk in `getDefectsPolar`
(lines 217-219 / 230-232), for a field `f` and normal field `N`:
`ctheta = dot(f[t], f[t0])`, `stheta = dot(N[t], cross(f[t], f[t0]))`,
`theta = arccos(ctheta) * sign(stheta)`. -/
noncomputable def polarStep (f N : ℕ → Vec3) (t0 t : ℕ) : ℝ :=
  Real.arccos (dot (f t) (f t0)) * Real.sign (dot (N t) (cross (f t) (f t0)))

/-- One transition `t0 → t` of the loop walk in `getDefectsNematic`
(lines 137-145 / 155-163): `ctheta = dot(f[t0], f[t])`,
`stheta = dot(N[t], cross(f[t0], f[t]))`, then the NaN/overshoot guards
and `theta = arcsin(stheta * sign(ctheta))`. -/
noncomputable def nematicStep (f N : ℕ → Vec3) (t0 t : ℕ) : ℝ :=
  safeTheta (some (dot (f t0) (f t))) (some (dot (N t) (cross (f t0) (f t))))

/-- The accumulation `thetatot += theta` with running previous index `t0`,
over the remaining loop entries. -/
noncomputable def thetaTotAux (step : ℕ → ℕ → ℝ) (t0 : ℕ) : List ℕ → ℝ
  | [] => 0
  | t :: rest => step t0 t + thetaTotAux step t rest

/-- The full loop walk: `t0` starts at `thisLoop[-1]` and `t` runs over
`thisLoop` in order (lines 215-221, 134-148). -/
noncomputable def thetaTot (step : ℕ → ℕ → ℝ) (l : List ℕ) : ℝ :=
  thetaTotAux step (l.getLastD 0) l

/-- `getDefectsPolar` (lines 209-247): accumulate the signed rotation of
the director (and optionally of the velocity direction) around the loop and
round to an integer winding number, `ndefect = int(round(thetatot/(2*pi)))`.
The velocity pass is skipped when `useVfield` is false (`vdefect = 0.0`). -/
noncomputable def getDefectsPolar (D : Defects) (thisLoop : List ℕ) (useVfield : Bool) :
    ℝ × ℝ :=
  (((pyround (thetaTot (polarStep D.conf.nval D.normal) thisLoop / (2 * π)) : ℤ) : ℝ),
   if useVfield then
     ((pyround (thetaTot (polarStep D.conf.vhat D.normal) thisLoop / (2 * π)) : ℤ) : ℝ)
   else 0)

/-- `getDefectsNematic` (lines 129-169): accumulate the guarded half-angle
rotation around the loop; `ndefect = -0.5*int(round(thetatot/pi))`.
The velocity pass is skipped when `useVfield` is false (`vdefect = 0.0`). -/
noncomputable def getDefectsNematic (D : Defects) (thisLoop : List ℕ) (useVfield : Bool) :
    ℝ × ℝ :=
  (-(1 / 2) * ((pyround (thetaTot (nematicStep D.conf.nval D.normal) thisLoop / π) : ℤ) : ℝ),
   if useVfield then
     -(1 / 2) * ((pyround (thetaTot (nematicStep D.conf.vhat D.normal) thisLoop / π) : ℤ) : ℝ)
   else 0)

/-- Modelled from the spec: the star-imports `from Configuration import *`
and `from Tesselation import *` (modules not under `src/`) do not define a
module-level name `nval`, so evaluating the bare `nval[thisLoop[0],:]` on
line 179 raises `NameError` before anything else in the pass runs. -/
def moduleNval : Except String (ℕ → Vec3) :=
  .error "NameError: global name 'nval' is not defined"

/-- Modelled from the spec: likewise no module-level name `vhat` exists, so
the bare `vhat[thisLoop[0],:]` on line 194 raises `NameError`. -/
def moduleVhat : Except String (ℕ → Vec3) :=
  .error "NameError: global name 'vhat' is not defined"

/-- The hemisphere-folding walk of the Goldenfeld algorithm
(lines 180-183 / 195-198): running `(ctheta, coord)` state, where each step
reads `f[loop[t]]` and the sign-folded previous sample. -/
noncomputable def goldenfeldFold (f : ℕ → Vec3) (loop : List ℕ) (first : Vec3) :
    ℝ × List Vec3 :=
  (List.range loop.length).drop 1 |>.foldl
    (fun (st : ℝ × List Vec3) t =>
      let c := dot (f (loop.getD t 0)) (smul (Real.sign st.1) (f (loop.getD (t - 1) 0)))
      (c, st.2 ++ [smul (Real.sign c) (f (loop.getD t 0))]))
    (1, [first])

/-- The orientation pass of `getDefectsGoldenfeld` (lines 177-189).  The
first statement to be evaluated is the unresolvable module-level `nval`
(line 179); the remainder of the pass is dead code. -/
noncomputable def goldenfeldNPass (D : Defects) (thisLoop : List ℕ) : Except String ℝ := do
  let nv ← moduleNval
  let st := goldenfeldFold D.conf.nval thisLoop (nv (thisLoop.getD 0 0))
  let cdefect := dot (st.2.getLastD zero) (st.2.getD 0 zero)
  pure (if cdefect < 0 then 1 / 2 else 0)

/-- The velocity pass of `getDefectsGoldenfeld` (lines 190-204), whose
first evaluated expression is the unresolvable module-level `vhat`
(line 194). -/
noncomputable def goldenfeldVPass (D : Defects) (thisLoop : List ℕ) : Except String ℝ := do
  let vv ← moduleVhat
  let st := goldenfeldFold D.conf.vhat thisLoop (vv (thisLoop.getD 0 0))
  let cdefect := dot (st.2.getLastD zero) (st.2.getD 0 zero)
  pure (if cdefect < 0 then 1 / 2 else 0)

/-- `getDefectsGoldenfeld` (lines 172-207): orientation pass, then
velocity pass when `useVfield` holds, else `vdefect = 0.0`. -/
noncomputable def getDefectsGoldenfeld (D : Defects) (thisLoop : List ℕ) (useVfield : Bool) :
    Except String (ℝ × ℝ) := do
  let ndefect ← goldenfeldNPass D thisLoop
  let vdefect ← if useVfield then goldenfeldVPass D thisLoop else pure 0
  pure (ndefect, vdefect)

/-- The in-loop mutable state of `getDefects` (lines 58-59 and the result
storage refilled during the loop over `LoopList`). -/
structure GD where
  char_n : ℝ
  char_v : ℝ
  defects_n : List (List ℝ)
  defects_v : List (List ℝ)
  numdefect_n : ℕ
  numdefect_v : ℕ

/-- The defect-position construction (lines 84-90 / 105-111 before the
sphere branch): `r0s = self.conf.rval[thisLoop]` — numpy integer-array
(fancy) indexing, which returns a fresh copy, never a view, so the
subsequent in-place unwrap `r0s[1:,:] = ApplyPeriodic12(...) + r0s[0,:]`
rewrites only that copy — then `rmval = np.mean(r0s, axis=0)`. -/
noncomputable def loopMean (D : Defects) (thisLoop : List ℕ) : Vec3 :=
  let r0s := thisLoop.map D.conf.rval
  let r0s :=
    if D.conf.geom.periodic then
      match r0s with
      | [] => []
      | r0 :: rest => r0 :: rest.map fun r => vadd (D.conf.geom.ApplyPeriodic12 r0 r) r0
    else r0s
  smul (1 / (r0s.length : ℝ)) (vsum r0s)

/-- Lines 88-90 / 109-111: on a spherical manifold the averaged point is
rescaled to the sphere, `rmval = rmval/rabs*R` with
`rabs = sqrt(x^2+y^2+z^2)`; otherwise the raw average is used. -/
noncomputable def defectPos (D : Defects) (thisLoop : List ℕ) : Vec3 :=
  let rmval := loopMean D thisLoop
  if D.conf.geom.manifold = "sphere" then
    let rabs := Real.sqrt (rmval.x ^ 2 + rmval.y ^ 2 + rmval.z ^ 2)
    ⟨rmval.x / rabs * D.conf.geom.R, rmval.y / rabs * D.conf.geom.R,
     rmval.z / rabs * D.conf.geom.R⟩
  else rmval

/-- The charge dispatch on `symtype` inside the loop (lines 70-78). -/
noncomputable def chargeOf (D : Defects) (symtype : String) (useVfield : Bool)
    (thisLoop : List ℕ) : Except String (ℝ × ℝ) :=
  if symtype = "oldnematic" then getDefectsGoldenfeld D thisLoop useVfield
  else if symtype = "polar" then pure (getDefectsPolar D thisLoop useVfield)
  else if symtype = "nematic" then pure (getDefectsNematic D thisLoop useVfield)
  else pure (0, 0)

/-- The body of the loop over `LoopList` in `getDefects` (lines 68-119):
obtain the two charges, and for each nonzero one append
`defbit = [charge] + list(rmval)` and bump the matching counter. -/
noncomputable def processLoop (D : Defects) (symtype : String) (useVfield : Bool)
    (g : GD) (thisLoop : List ℕ) : Except String GD := do
  let cs ← chargeOf D symtype useVfield thisLoop
  let ndefect := cs.1
  let vdefect := cs.2
  let g :=
    if 0 < |ndefect| then
      { g with
        char_n := g.char_n + ndefect
        defects_n := g.defects_n ++ [ndefect :: toList (defectPos D thisLoop)]
        numdefect_n := g.numdefect_n + 1 }
    else g
  let g :=
    if useVfield ∧ 0 < |vdefect| then
      { g with
        char_v := g.char_v + vdefect
        defects_v := g.defects_v ++ [vdefect :: toList (defectPos D thisLoop)]
        numdefect_v := g.numdefect_v + 1 }
    else g
  pure g

/-- The banner printed by lines 60-67 for a given `symtype`. -/
def symtypeMessage (symtype : String) : String :=
  if symtype = "oldnematic" then "Tracking nematic defects with the Goldenfeld algorithm!"
  else if symtype = "polar" then "Tracking polar defects!"
  else if symtype = "nematic" then "Tracking nematic defects!"
  else "Unknown alignment symmetry type! Not tracking defects!"

/-- `getDefects` (lines 50-127): reset the stored results (lines 54-57 —
modelled by starting the accumulator from the empty state), walk every
loop, and return `(self.defects_n, self.defects_v, self.numdefect_n,
self.numdefect_v)` together with the updated object. -/
noncomputable def getDefects (D : Defects) (symtype : String) (useVfield : Bool) :
    Except String (Defects × List (List ℝ) × List (List ℝ) × ℕ × ℕ) := do
  let g ← D.LoopList.foldlM (processLoop D symtype useVfield)
    ⟨0, 0, [], [], 0, 0⟩
  pure ({ D with
            numdefect_n := g.numdefect_n
            numdefect_v := g.numdefect_v
            defects_n := g.defects_n
            defects_v := g.defects_v },
        g.defects_n, g.defects_v, g.numdefect_n, g.numdefect_v)

/-! ### Helper lemmas: rounding, signs, planar trigonometry -/

theorem floor_eval_int (z : ℤ) (x : ℝ) (h1 : (z:ℝ) ≤ x) (h2 : x < z + 1) : ⌊x⌋ = z :=
  Int.floor_eq_iff.mpr ⟨h1, h2⟩

theorem pyround_one : pyround 1 = 1 := by
  unfold pyround
  rw [if_pos (by norm_num : (0:ℝ) ≤ 1), floor_eval_int 1 _ (by norm_num) (by norm_num)]

theorem pyround_neg_one : pyround (-1) = -1 := by
  rw [show ((-1:ℝ)) = -(1:ℝ) by norm_num, pyround_neg, pyround_one]

theorem pyround_quarter : pyround (1/4) = 0 := by
  unfold pyround
  rw [if_pos (by norm_num : (0:ℝ) ≤ 1/4), floor_eval_int 0 _ (by norm_num) (by norm_num)]

theorem pyround_neg_three_quarters : pyround (-(3/4)) = -1 := by
  rw [pyround_neg]
  unfold pyround
  rw [if_pos (by norm_num : (0:ℝ) ≤ 3/4), floor_eval_int 1 _ (by norm_num) (by norm_num)]

theorem sign_abs_le_one (x : ℝ) : |Real.sign x| ≤ 1 := by
  rcases lt_trichotomy x 0 with h | h | h
  · rw [Real.sign_of_neg h]; norm_num
  · subst h; rw [Real.sign_zero]; norm_num
  · rw [Real.sign_of_pos h]; norm_num

theorem guardS_abs_le_one (s : NF) : |guardS s| ≤ 1 := by
  match s with
  | none => simp [guardS]
  | some v =>
      by_cases h : 1 < |v|
      · simpa [guardS, h] using sign_abs_le_one v
      · simpa [guardS, h] using le_of_not_lt h

theorem guardS_of_abs_le (x : ℝ) (h : |x| ≤ 1) : guardS (some x) = x := by
  simp [guardS, not_lt.mpr h]

/-- The planar unit vector at angle `a` in the xy-plane. -/
noncomputable def planar (a : ℝ) : Vec3 := ⟨Real.cos a, Real.sin a, 0⟩

/-- A vector along the z-axis with signed magnitude `e`. -/
def zhat (e : ℝ) : Vec3 := ⟨0, 0, e⟩

theorem dot_planar (a b : ℝ) : dot (planar a) (planar b) = Real.cos (a - b) := by
  unfold dot planar
  rw [Real.cos_sub]; ring

theorem dot_zhat_cross_planar (e a b : ℝ) :
    dot (zhat e) (cross (planar a) (planar b)) = e * Real.sin (b - a) := by
  unfold dot cross zhat planar
  dsimp only
  rw [Real.sin_sub]; ring

theorem polarStep_eval (f N : ℕ → Vec3) (t0 t : ℕ) (a b e : ℝ)
    (hft : f t = planar a) (hft0 : f t0 = planar b) (hNt : N t = zhat e) :
    polarStep f N t0 t =
      Real.arccos (Real.cos (a - b)) * Real.sign (e * Real.sin (b - a)) := by
  unfold polarStep
  rw [hft, hft0, hNt, dot_planar, dot_zhat_cross_planar]

theorem nematicStep_eval (f N : ℕ → Vec3) (t0 t : ℕ) (a b e : ℝ)
    (hft : f t = planar a) (hft0 : f t0 = planar b) (hNt : N t = zhat e) :
    nematicStep f N t0 t =
      Real.arcsin (guardS (some (e * Real.sin (a - b))) *
        Real.sign (Real.cos (b - a))) := by
  unfold nematicStep safeTheta
  rw [hft, hft0, hNt, dot_planar, dot_zhat_cross_planar]
  rfl

theorem cos_five_pi_div_three : Real.cos (5 * π / 3) = 1 / 2 := by
  rw [show (5:ℝ) * π / 3 = 2 * π - π / 3 by ring, Real.cos_two_pi_sub, Real.cos_pi_div_three]

theorem sin_five_pi_div_three : Real.sin (5 * π / 3) = -(√3 / 2) := by
  rw [show (5:ℝ) * π / 3 = 2 * π - π / 3 by ring, Real.sin_two_pi_sub, Real.sin_pi_div_three]

theorem cos_five_pi_div_six : Real.cos (5 * π / 6) = -(√3 / 2) := by
  rw [show (5:ℝ) * π / 6 = π - π / 6 by ring, Real.cos_pi_sub, Real.cos_pi_div_six]

theorem sin_five_pi_div_six : Real.sin (5 * π / 6) = 1 / 2 := by
  rw [show (5:ℝ) * π / 6 = π - π / 6 by ring, Real.sin_pi_sub, Real.sin_pi_div_six]

theorem cos_three_pi_div_four : Real.cos (3 * π / 4) = -(√2 / 2) := by
  rw [show (3:ℝ) * π / 4 = π - π / 4 by ring, Real.cos_pi_sub, Real.cos_pi_div_four]

theorem sin_three_pi_div_four : Real.sin (3 * π / 4) = √2 / 2 := by
  rw [show (3:ℝ) * π / 4 = π - π / 4 by ring, Real.sin_pi_sub, Real.sin_pi_div_four]

theorem cos_five_pi_div_four : Real.cos (5 * π / 4) = -(√2 / 2) := by
  rw [show (5:ℝ) * π / 4 = 2 * π - 3 * π / 4 by ring, Real.cos_two_pi_sub, cos_three_pi_div_four]

theorem sin_five_pi_div_four : Real.sin (5 * π / 4) = -(√2 / 2) := by
  rw [show (5:ℝ) * π / 4 = 2 * π - 3 * π / 4 by ring, Real.sin_two_pi_sub, sin_three_pi_div_four]

theorem arccos_half : Real.arccos (1 / 2) = π / 3 := by
  rw [← Real.cos_pi_div_three]
  exact Real.arccos_cos (by positivity) (by linarith [Real.pi_pos])

theorem arccos_cos_pi_div_two : Real.arccos (Real.cos (π / 2)) = π / 2 :=
  Real.arccos_cos (by positivity) (by linarith [Real.pi_pos])

theorem arccos_cos_pi_div_four : Real.arccos (Real.cos (π / 4)) = π / 4 :=
  Real.arccos_cos (by positivity) (by linarith [Real.pi_pos])

theorem arccos_cos_three_pi_div_four :
    Real.arccos (Real.cos (3 * π / 4)) = 3 * π / 4 :=
  Real.arccos_cos (by positivity) (by linarith [Real.pi_pos])

theorem arcsin_half : Real.arcsin (1 / 2) = π / 6 := by
  rw [← Real.sin_pi_div_six]
  exact Real.arcsin_sin (by linarith [Real.pi_pos]) (by linarith [Real.pi_pos])

theorem sqrt3_half_pos : (0:ℝ) < √3 / 2 := by positivity

theorem sqrt2_half_pos : (0:ℝ) < √2 / 2 := by positivity

/-! ### Concrete configurations for the canonical test loops -/

/-- A flat (non-periodic) geometry whose unit normal is `(0,0,1)`
everywhere. -/
noncomputable def flatGeom : Geom :=
  { periodic := false
    manifold := "plane"
    R := 1
    ApplyPeriodic12 := fun _ p => p
    UnitNormal := fun _ => fun _ => zhat 1 }

/-- The canonical +1-vortex snapshot of the spec: director samples
`v_i = (cos(i*2*pi/6), sin(i*2*pi/6), 0)` with normal `(0,0,1)`. -/
noncomputable def polarConf : Conf :=
  { rval := fun _ => ⟨1, 0, 0⟩
    nval := fun i => planar ((i : ℝ) * (π / 3))
    vhat := fun _ => ⟨1, 0, 0⟩
    geom := flatGeom }

/-- The `Defects` object bound to `polarConf` with the single loop
`[0,1,2,3,4,5]`. -/
noncomputable def polarD : Defects := Defects.init [[0, 1, 2, 3, 4, 5]] polarConf

/-- The canonical nematic snapshot of the spec: director samples
`n_i = (cos(i*pi/6), sin(i*pi/6), 0)` with normal `(0,0,1)`. -/
noncomputable def nemConf : Conf :=
  { rval := fun _ => ⟨1, 0, 0⟩
    nval := fun i => planar ((i : ℝ) * (π / 6))
    vhat := fun _ => ⟨1, 0, 0⟩
    geom := flatGeom }

/-- The `Defects` object bound to `nemConf` with the single loop
`[0,1,2,3,4,5]`. -/
noncomputable def nemD : Defects := Defects.init [[0, 1, 2, 3, 4, 5]] nemConf

theorem polar_planar (f N : ℕ → Vec3) (t0 t : ℕ) (a b : ℝ)
    (hft : f t = planar a) (hft0 : f t0 = planar b) (hNt : N t = zhat 1) :
    polarStep f N t0 t =
      Real.arccos (Real.cos (a - b)) * Real.sign (Real.sin (b - a)) := by
  rw [polarStep_eval f N t0 t a b 1 hft hft0 hNt, one_mul]

theorem nematic_planar (f N : ℕ → Vec3) (t0 t : ℕ) (a b : ℝ)
    (hft : f t = planar a) (hft0 : f t0 = planar b) (hNt : N t = zhat 1) :
    nematicStep f N t0 t =
      Real.arcsin (Real.sin (a - b) * Real.sign (Real.cos (b - a))) := by
  rw [nematicStep_eval f N t0 t a b 1 hft hft0 hNt, one_mul,
    guardS_of_abs_le _ (Real.abs_sin_le_one _)]

theorem polar_fwd_step :
    Real.arccos (Real.cos (π / 3)) * Real.sign (Real.sin (-(π / 3))) = -(π / 3) := by
  rw [Real.cos_pi_div_three, arccos_half, Real.sin_neg, Real.sin_pi_div_three,
    Real.sign_of_neg (by linarith [sqrt3_half_pos])]
  ring

theorem polar_wrap_step :
    Real.arccos (Real.cos (-(5 * π / 3))) * Real.sign (Real.sin (5 * π / 3)) = -(π / 3) := by
  rw [Real.cos_neg, cos_five_pi_div_three, arccos_half, sin_five_pi_div_three,
    Real.sign_of_neg (by linarith [sqrt3_half_pos])]
  ring

theorem C1_theta :
    thetaTot (polarStep polarD.conf.nval polarD.normal) [0, 1, 2, 3, 4, 5] = -(2 * π) := by
  have key : ∀ t0 t : ℕ, polarStep polarD.conf.nval polarD.normal t0 t =
      Real.arccos (Real.cos ((t : ℝ) * (π / 3) - (t0 : ℝ) * (π / 3))) *
        Real.sign (Real.sin ((t0 : ℝ) * (π / 3) - (t : ℝ) * (π / 3))) :=
    fun t0 t => polar_planar _ _ t0 t _ _ rfl rfl rfl
  unfold thetaTot
  rw [show (([0, 1, 2, 3, 4, 5] : List ℕ).getLastD 0) = 5 from rfl]
  simp only [thetaTotAux]
  rw [key 5 0, key 0 1, key 1 2, key 2 3, key 3 4, key 4 5]
  push_cast
  rw [show (0 : ℝ) * (π / 3) - 5 * (π / 3) = -(5 * π / 3) by ring,
    show (5 : ℝ) * (π / 3) - 0 * (π / 3) = 5 * π / 3 by ring,
    show (1 : ℝ) * (π / 3) - 0 * (π / 3) = π / 3 by ring,
    show (0 : ℝ) * (π / 3) - 1 * (π / 3) = -(π / 3) by ring,
    show (2 : ℝ) * (π / 3) - 1 * (π / 3) = π / 3 by ring,
    show (1 : ℝ) * (π / 3) - 2 * (π / 3) = -(π / 3) by ring,
    show (3 : ℝ) * (π / 3) - 2 * (π / 3) = π / 3 by ring,
    show (2 : ℝ) * (π / 3) - 3 * (π / 3) = -(π / 3) by ring,
    show (4 : ℝ) * (π / 3) - 3 * (π / 3) = π / 3 by ring,
    show (3 : ℝ) * (π / 3) - 4 * (π / 3) = -(π / 3) by ring,
    show (5 : ℝ) * (π / 3) - 4 * (π / 3) = π / 3 by ring,
    show (4 : ℝ) * (π / 3) - 5 * (π / 3) = -(π / 3) by ring]
  rw [polar_wrap_step, polar_fwd_step]
  ring

theorem C1_eval : getDefectsPolar polarD [0, 1, 2, 3, 4, 5] false = (-1, 0) := by
  unfold getDefectsPolar
  rw [C1_theta, neg_div, div_self (by positivity : (2 : ℝ) * π ≠ 0), pyround_neg_one]
  norm_num

theorem nem_fwd_step :
    Real.arcsin (Real.sin (π / 6) * Real.sign (Real.cos (-(π / 6)))) = π / 6 := by
  rw [Real.cos_neg, Real.sign_of_pos (by rw [Real.cos_pi_div_six]; positivity), mul_one,
    Real.sin_pi_div_six, arcsin_half]

theorem nem_wrap_step :
    Real.arcsin (Real.sin (-(5 * π / 6)) * Real.sign (Real.cos (5 * π / 6))) = π / 6 := by
  rw [Real.sin_neg, sin_five_pi_div_six, cos_five_pi_div_six,
    Real.sign_of_neg (by linarith [sqrt3_half_pos])]
  rw [show -(1 / 2 : ℝ) * (-1) = 1 / 2 by ring, arcsin_half]

theorem C2_theta :
    thetaTot (nematicStep nemD.conf.nval nemD.normal) [0, 1, 2, 3, 4, 5] = π := by
  have key : ∀ t0 t : ℕ, nematicStep nemD.conf.nval nemD.normal t0 t =
      Real.arcsin (Real.sin ((t : ℝ) * (π / 6) - (t0 : ℝ) * (π / 6)) *
        Real.sign (Real.cos ((t0 : ℝ) * (π / 6) - (t : ℝ) * (π / 6)))) :=
    fun t0 t => nematic_planar _ _ t0 t _ _ rfl rfl rfl
  unfold thetaTot
  rw [show (([0, 1, 2, 3, 4, 5] : List ℕ).getLastD 0) = 5 from rfl]
  simp only [thetaTotAux]
  rw [key 5 0, key 0 1, key 1 2, key 2 3, key 3 4, key 4 5]
  push_cast
  rw [show (0 : ℝ) * (π / 6) - 5 * (π / 6) = -(5 * π / 6) by ring,
    show (5 : ℝ) * (π / 6) - 0 * (π / 6) = 5 * π / 6 by ring,
    show (1 : ℝ) * (π / 6) - 0 * (π / 6) = π / 6 by ring,
    show (0 : ℝ) * (π / 6) - 1 * (π / 6) = -(π / 6) by ring,
    show (2 : ℝ) * (π / 6) - 1 * (π / 6) = π / 6 by ring,
    show (1 : ℝ) * (π / 6) - 2 * (π / 6) = -(π / 6) by ring,
    show (3 : ℝ) * (π / 6) - 2 * (π / 6) = π / 6 by ring,
    show (2 : ℝ) * (π / 6) - 3 * (π / 6) = -(π / 6) by ring,
    show (4 : ℝ) * (π / 6) - 3 * (π / 6) = π / 6 by ring,
    show (3 : ℝ) * (π / 6) - 4 * (π / 6) = -(π / 6) by ring,
    show (5 : ℝ) * (π / 6) - 4 * (π / 6) = π / 6 by ring,
    show (4 : ℝ) * (π / 6) - 5 * (π / 6) = -(π / 6) by ring]
  rw [nem_wrap_step, nem_fwd_step]
  ring

theorem C2_canonical_eval :
    getDefectsNematic nemD [0, 1, 2, 3, 4, 5] false = (-(1 / 2), 0) := by
  unfold getDefectsNematic
  rw [C2_theta, div_self Real.pi_ne_zero, pyround_one]
  norm_num

/-! ### Claim theorems: quantization, canonical charges, guards, legacy errors -/

/-- Claim C1 (counterexample): on the canonical +1-vortex input — six
points with field `v_i = (cos(i*2*pi/6), sin(i*2*pi/6), 0)`, normal
`(0,0,1)`, loop traversed in index order — `getDefectsPolar` does NOT
return orientation charge `+1`. -/
theorem C1_counterexample :
    (getDefectsPolar polarD [0, 1, 2, 3, 4, 5] false).1 ≠ 1 := by
  rw [C1_eval]
  norm_num

/-- Claim C1 (amended): on the canonical +1-vortex input the Polar charge
algorithm returns orientation charge `-1` (the loop-walk convention
`cross(v_t, v_t0)` measures clockwise rotation as positive, so a
counter-clockwise +1 vortex traversed in index order yields `-1`). -/
theorem C1_amended :
    getDefectsPolar polarD [0, 1, 2, 3, 4, 5] false = (-1, 0) := C1_eval

/-- Claim C2: every charge returned by `getDefectsNematic` is an integer
multiple of `0.5` (both the orientation charge and the velocity charge),
and on the canonical nematic loop `n_i = (cos(i*pi/6), sin(i*pi/6), 0)`
with normal `(0,0,1)` the orientation charge has absolute value `0.5`. -/
theorem C2_nematic_half_quantization :
    (∀ (D : Defects) (loop : List ℕ) (u : Bool),
        (∃ k : ℤ, (getDefectsNematic D loop u).1 = (k : ℝ) * (1 / 2)) ∧
        (∃ m : ℤ, (getDefectsNematic D loop u).2 = (m : ℝ) * (1 / 2))) ∧
    |(getDefectsNematic nemD [0, 1, 2, 3, 4, 5] false).1| = 0.5 := by
  constructor
  · intro D loop u
    constructor
    · refine ⟨-(pyround (thetaTot (nematicStep D.conf.nval D.normal) loop / π)), ?_⟩
      simp only [getDefectsNematic]
      push_cast
      ring
    · cases u
      · exact ⟨0, by simp [getDefectsNematic]⟩
      · refine ⟨-(pyround (thetaTot (nematicStep D.conf.vhat D.normal) loop / π)), ?_⟩
        simp only [getDefectsNematic, if_true]
        push_cast
        ring
  · rw [C2_canonical_eval]
    norm_num

/-- Claim C9: the orientation charge returned by `getDefectsPolar` is
always an integer, and so is the velocity charge (which is the integer `0`
when `useVfield` is false). -/
theorem C9_polar_integer_quantization (D : Defects) (loop : List ℕ) (u : Bool) :
    (∃ k : ℤ, (getDefectsPolar D loop u).1 = (k : ℝ)) ∧
    (∃ m : ℤ, (getDefectsPolar D loop u).2 = (m : ℝ)) := by
  constructor
  · exact ⟨pyround (thetaTot (polarStep D.conf.nval D.normal) loop / (2 * π)), rfl⟩
  · cases u
    · exact ⟨0, by simp [getDefectsPolar]⟩
    · exact ⟨pyround (thetaTot (polarStep D.conf.vhat D.normal) loop / (2 * π)),
        by simp [getDefectsPolar]⟩

/-- Claim C4: the legacy Goldenfeld algorithm fails with a name-resolution
error on every loop: the orientation pass trips over the unscoped module
name `nval` (line 179), the velocity pass over the unscoped `vhat`
(line 194), so `getDefectsGoldenfeld` always propagates the `NameError`. -/
theorem C4_goldenfeld_name_error (D : Defects) (loop : List ℕ) (u : Bool) :
    getDefectsGoldenfeld D loop u =
      .error "NameError: global name 'nval' is not defined" ∧
    goldenfeldNPass D loop = .error "NameError: global name 'nval' is not defined" ∧
    goldenfeldVPass D loop = .error "NameError: global name 'vhat' is not defined" :=
  ⟨rfl, rfl, rfl⟩

/-- Claim C5: the nematic per-transition guards ensure `arcsin` is applied
to a value in `[-1,1]`: an `stheta` of magnitude above 1 is replaced by its
sign, a NaN `stheta` by `0`, a NaN `ctheta` by `1`, a fully degenerate
transition contributes exactly zero rotation, and every transition of
`getDefectsNematic` goes through exactly this guarded computation. -/
theorem C5_nematic_domain_guards :
    (∀ c s : NF, |guardS s * Real.sign (guardC c)| ≤ 1) ∧
    (∀ s : ℝ, 1 < |s| → guardS (some s) = Real.sign s) ∧
    guardS none = 0 ∧ guardC none = 1 ∧ safeTheta none none = 0 ∧
    (∀ (f N : ℕ → Vec3) (t0 t : ℕ),
        nematicStep f N t0 t =
          Real.arcsin (guardS (some (dot (N t) (cross (f t0) (f t)))) *
            Real.sign (guardC (some (dot (f t0) (f t)))))) := by
  refine ⟨?_, ?_, rfl, rfl, ?_, fun f N t0 t => rfl⟩
  · intro c s
    rw [abs_mul]
    exact mul_le_one₀ (guardS_abs_le_one s) (abs_nonneg _) (sign_abs_le_one _)
  · intro s h
    simp [guardS, h]
  · simp [safeTheta, guardS, guardC, Real.sign_one]

/-- Witness for C5: a concrete overshooting `stheta = 2` is clamped to its
sign. -/
theorem C5_witness : (1 < |(2 : ℝ)|) ∧ guardS (some 2) = Real.sign 2 :=
  ⟨by norm_num, C5_nematic_domain_guards.2.1 2 (by norm_num)⟩

/-! ### The orchestrator: unknown symmetry, idempotence, snapshot preservation -/

/-- The reset of the stored results performed at the top of `getDefects`
(lines 54-57). -/
def resetD (D : Defects) : Defects :=
  { D with numdefect_n := 0, numdefect_v := 0, defects_n := [], defects_v := [] }

theorem processLoop_unknown (D : Defects) (s : String) (u : Bool)
    (h1 : s ≠ "oldnematic") (h2 : s ≠ "polar") (h3 : s ≠ "nematic")
    (g : GD) (loop : List ℕ) : processLoop D s u g loop = pure g := by
  unfold processLoop chargeOf
  rw [if_neg h1, if_neg h2, if_neg h3]
  have h0 : ¬ (0 : ℝ) < |(0 : ℝ)| := by norm_num
  simp only [pure, Except.pure, bind, Except.bind, if_neg h0, and_false, if_neg,
    not_false_iff, false_and]
  simp [h0]

theorem foldlM_unknown (D : Defects) (s : String) (u : Bool)
    (h1 : s ≠ "oldnematic") (h2 : s ≠ "polar") (h3 : s ≠ "nematic") :
    ∀ (ls : List (List ℕ)) (g : GD),
      List.foldlM (processLoop D s u) g ls = pure g := by
  intro ls
  induction ls with
  | nil => intro g; rfl
  | cons l ls ih =>
      intro g
      rw [List.foldlM_cons, processLoop_unknown D s u h1 h2 h3]
      simpa using ih g

/-- Claim C3: for every symmetry selector other than `polar`, `nematic`
and `oldnematic`, `getDefects` never raises: it prints the warning banner
and returns empty defect lists with both counters zero, for every snapshot,
loop list and `useVfield` flag. -/
theorem C3_unknown_symtype (D : Defects) (s : String) (u : Bool)
    (h1 : s ≠ "oldnematic") (h2 : s ≠ "polar") (h3 : s ≠ "nematic") :
    getDefects D s u = .ok (resetD D, [], [], 0, 0) ∧
    symtypeMessage s = "Unknown alignment symmetry type! Not tracking defects!" := by
  constructor
  · unfold getDefects
    rw [foldlM_unknown D s u h1 h2 h3]
    rfl
  · unfold symtypeMessage
    rw [if_neg h1, if_neg h2, if_neg h3]

/-- Witness for C3: a concrete unknown selector `"foo"` on a concrete
snapshot. -/
theorem C3_witness :
    getDefects nemD "foo" true = .ok (resetD nemD, [], [], 0, 0) ∧
    symtypeMessage "foo" = "Unknown alignment symmetry type! Not tracking defects!" :=
  C3_unknown_symtype nemD "foo" true (by decide) (by decide) (by decide)

theorem getDefectsPolar_congr (D D' : Defects) (l : List ℕ) (u : Bool)
    (hn : D.conf.nval = D'.conf.nval) (hv : D.conf.vhat = D'.conf.vhat)
    (hN : D.normal = D'.normal) :
    getDefectsPolar D l u = getDefectsPolar D' l u := by
  unfold getDefectsPolar
  rw [hn, hv, hN]

theorem getDefectsNematic_congr (D D' : Defects) (l : List ℕ) (u : Bool)
    (hn : D.conf.nval = D'.conf.nval) (hv : D.conf.vhat = D'.conf.vhat)
    (hN : D.normal = D'.normal) :
    getDefectsNematic D l u = getDefectsNematic D' l u := by
  unfold getDefectsNematic
  rw [hn, hv, hN]

theorem getDefectsGoldenfeld_congr (D D' : Defects) (l : List ℕ) (u : Bool) :
    getDefectsGoldenfeld D l u = getDefectsGoldenfeld D' l u := rfl

theorem defectPos_congr (D D' : Defects) (l : List ℕ)
    (hc : D.conf = D'.conf) : defectPos D l = defectPos D' l := by
  unfold defectPos loopMean
  rw [hc]

theorem processLoop_congr (D D' : Defects) (s : String) (u : Bool)
    (hc : D.conf = D'.conf) (hN : D.normal = D'.normal) :
    processLoop D s u = processLoop D' s u := by
  funext g loop
  unfold processLoop chargeOf
  rw [getDefectsPolar_congr D D' loop u (by rw [hc]) (by rw [hc]) hN,
    getDefectsNematic_congr D D' loop u (by rw [hc]) (by rw [hc]) hN,
    getDefectsGoldenfeld_congr D D' loop u, defectPos_congr D D' loop hc]

/-- Claim C8: calling `getDefects` twice with the same selector and flag
on an unchanged object returns exactly the same result: the second call on
the object returned by the first reproduces the first call's defect lists,
counts and final object (prior stored results are discarded, not
accumulated). -/
theorem C8_idempotent (D : Defects) (s : String) (u : Bool) (D1 : Defects)
    (out : List (List ℝ) × List (List ℝ) × ℕ × ℕ)
    (h : getDefects D s u = .ok (D1, out)) :
    getDefects D1 s u = .ok (D1, out) := by
  unfold getDefects at h ⊢
  cases hf : D.LoopList.foldlM (processLoop D s u) ⟨0, 0, [], [], 0, 0⟩ with
  | error e =>
      rw [hf] at h
      exact absurd h (by simp [bind, Except.bind])
  | ok g =>
      rw [hf] at h
      simp only [bind, Except.bind, pure, Except.pure, Except.ok.injEq] at h
      have hD1 : D1 = { D with
          numdefect_n := g.numdefect_n
          numdefect_v := g.numdefect_v
          defects_n := g.defects_n
          defects_v := g.defects_v } := (congrArg Prod.fst h).symm
      have hout : out = (g.defects_n, g.defects_v, g.numdefect_n, g.numdefect_v) :=
        (congrArg Prod.snd h).symm
      subst hout
      have hc : D1.conf = D.conf := by rw [hD1]
      have hN : D1.normal = D.normal := by rw [hD1]
      have hl : D1.LoopList = D.LoopList := by rw [hD1]
      rw [processLoop_congr D1 D s u hc hN, hl, hf, hD1]
      rfl

/-- Claim C10: `getDefects` never mutates the bound snapshot: the returned
object keeps the original `conf` (positions, directors, velocity
directions, geometry), the cached unit-normal field and the loop list;
the periodic unwrap only rewrites the fresh copy made by fancy indexing. -/
theorem C10_no_snapshot_mutation (D : Defects) (s : String) (u : Bool)
    (D1 : Defects) (out : List (List ℝ) × List (List ℝ) × ℕ × ℕ)
    (h : getDefects D s u = .ok (D1, out)) :
    D1.conf = D.conf ∧ D1.normal = D.normal ∧ D1.LoopList = D.LoopList := by
  unfold getDefects at h
  cases hf : D.LoopList.foldlM (processLoop D s u) ⟨0, 0, [], [], 0, 0⟩ with
  | error e =>
      rw [hf] at h
      exact absurd h (by simp [bind, Except.bind])
  | ok g =>
      rw [hf] at h
      simp only [bind, Except.bind, pure, Except.pure, Except.ok.injEq] at h
      have hD1 : D1 = { D with
          numdefect_n := g.numdefect_n
          numdefect_v := g.numdefect_v
          defects_n := g.defects_n
          defects_v := g.defects_v } := (congrArg Prod.fst h).symm
      subst hD1
      exact ⟨rfl, rfl, rfl⟩

/-- A `Defects` object with no loops, for concrete runs of the
orchestrator. -/
noncomputable def emptyD : Defects := Defects.init [] polarConf

theorem emptyD_run : getDefects emptyD "polar" true = .ok (emptyD, [], [], 0, 0) := rfl

/-- Witness for C8: the concrete no-loop polar run reproduces itself. -/
theorem C8_witness : getDefects emptyD "polar" true = .ok (emptyD, [], [], 0, 0) :=
  C8_idempotent emptyD "polar" true emptyD ([], [], 0, 0) emptyD_run

/-- Witness for C10: the concrete no-loop polar run preserves the
snapshot. -/
theorem C10_witness :
    emptyD.conf = emptyD.conf ∧ emptyD.normal = emptyD.normal ∧
    emptyD.LoopList = emptyD.LoopList :=
  C10_no_snapshot_mutation emptyD "polar" true emptyD ([], [], 0, 0) emptyD_run

/-! ### Loop reversal: antisymmetry of the walk and its limits -/

/-- The sum of `step` over adjacent pairs of a node list. -/
noncomputable def walkSum (step : ℕ → ℕ → ℝ) : List ℕ → ℝ
  | [] => 0
  | [_] => 0
  | a :: b :: rest => step a b + walkSum step (b :: rest)

theorem walkSum_append (step : ℕ → ℕ → ℝ) :
    ∀ (ys : List ℕ) (b x : ℕ),
      walkSum step ((b :: ys) ++ [x]) =
        walkSum step (b :: ys) + step ((b :: ys).getLastD 0) x := by
  intro ys
  induction ys with
  | nil =>
      intro b x
      simp [walkSum, List.getLastD_cons]
  | cons c ys ih =>
      intro b x
      have h1 : (b :: c :: ys).getLastD 0 = (c :: ys).getLastD 0 := by
        simp [List.getLastD_cons]
      rw [List.cons_append]
      show step b c + walkSum step ((c :: ys) ++ [x]) = _
      rw [ih c x, h1]
      show _ = step b c + walkSum step (c :: ys) + step ((c :: ys).getLastD 0) x
      ring

theorem walkSum_reverse (step : ℕ → ℕ → ℝ) :
    ∀ (m : List ℕ), (∀ a ∈ m, ∀ b ∈ m, step a b = -step b a) →
      walkSum step m.reverse = -walkSum step m := by
  intro m
  induction m with
  | nil => intro _; simp [walkSum]
  | cons a m ih =>
      intro H
      cases m with
      | nil => simp [walkSum]
      | cons b rest =>
          have hne : (b :: rest).reverse ≠ [] := by simp
          obtain ⟨c, ys, hcys⟩ := List.exists_cons_of_ne_nil hne
          have hrev : (a :: b :: rest).reverse = (c :: ys) ++ [a] := by
            rw [List.reverse_cons, hcys]
          rw [hrev, walkSum_append step ys c a, ← hcys]
          have hlast : ((b :: rest).reverse).getLastD 0 = b := by
            rw [List.getLastD_eq_getLast?, List.getLast?_reverse]
            rfl
          rw [hlast]
          have hm : walkSum step (b :: rest).reverse = -walkSum step (b :: rest) :=
            ih fun x hx y hy =>
              H x (List.mem_cons_of_mem a hx) y (List.mem_cons_of_mem a hy)
          have hab : step b a = -step a b :=
            H b (by simp) a (by simp)
          rw [hm, hab]
          show _ = -(step a b + walkSum step (b :: rest))
          ring

theorem thetaTotAux_eq_walkSum (step : ℕ → ℕ → ℝ) :
    ∀ (l : List ℕ) (t0 : ℕ), thetaTotAux step t0 l = walkSum step (t0 :: l) := by
  intro l
  induction l with
  | nil => intro t0; rfl
  | cons t rest ih =>
      intro t0
      show step t0 t + thetaTotAux step t rest = _
      rw [ih t]
      rfl

theorem thetaTot_eq_walkSum (step : ℕ → ℕ → ℝ) (l : List ℕ) :
    thetaTot step l = walkSum step (l.getLastD 0 :: l) :=
  thetaTotAux_eq_walkSum step l (l.getLastD 0)

theorem thetaTot_reverse (step : ℕ → ℕ → ℝ) (l : List ℕ)
    (H : ∀ a ∈ l, ∀ b ∈ l, step a b = -step b a) :
    thetaTot step l.reverse = -thetaTot step l := by
  cases l with
  | nil => simp [thetaTot, thetaTotAux]
  | cons h tl =>
      rw [thetaTot_eq_walkSum, thetaTot_eq_walkSum]
      have hlast : ((h :: tl).reverse).getLastD 0 = h := by
        rw [List.getLastD_eq_getLast?, List.getLast?_reverse]
        rfl
      rw [hlast]
      have hrev : h :: (h :: tl).reverse = ((h :: tl) ++ [h]).reverse := by
        rw [List.reverse_append]
        rfl
      rw [hrev, walkSum_reverse step ((h :: tl) ++ [h]) ?hmem]
      case hmem =>
        intro a ha b hb
        have ha' : a ∈ h :: tl := by
          rcases List.mem_append.mp ha with h1 | h1
          · exact h1
          · simp at h1; subst h1; simp
        have hb' : b ∈ h :: tl := by
          rcases List.mem_append.mp hb with h1 | h1
          · exact h1
          · simp at h1; subst h1; simp
        exact H a ha' b hb'
      rw [walkSum_append step tl h h]
      show -(walkSum step (h :: tl) + step ((h :: tl).getLastD 0) h) =
        -(step ((h :: tl).getLastD 0) h + walkSum step (h :: tl))
      ring

theorem guardS_neg (x : ℝ) : guardS (some (-x)) = -guardS (some x) := by
  show (if 1 < |(-x)| then Real.sign (-x) else -x) = -(if 1 < |x| then Real.sign x else x)
  rw [abs_neg]
  by_cases h : 1 < |x|
  · rw [if_pos h, if_pos h, Real.sign_neg]
  · rw [if_neg h, if_neg h]

theorem polarStep_antisymm (f N : ℕ → Vec3) (a b : ℕ) (h : N a = N b) :
    polarStep f N a b = -polarStep f N b a := by
  unfold polarStep
  rw [h, dot_comm (f a) (f b), cross_antisymm (f a) (f b), dot_vneg_right,
    Real.sign_neg]
  ring

theorem nematicStep_antisymm (f N : ℕ → Vec3) (a b : ℕ) (h : N a = N b) :
    nematicStep f N a b = -nematicStep f N b a := by
  unfold nematicStep safeTheta guardC
  rw [h, dot_comm (f b) (f a), cross_antisymm (f b) (f a), dot_vneg_right,
    guardS_neg, neg_mul, Real.arcsin_neg, neg_neg]

/-- Claim C7 (amended): reversing the loop negates both returned charges
of both algorithms, provided the unit normal is the same at every point of
the loop. -/
theorem C7_reversal_uniform_normal (D : Defects) (loop : List ℕ) (u : Bool)
    (hN : ∀ i ∈ loop, ∀ j ∈ loop, D.normal i = D.normal j) :
    getDefectsPolar D loop.reverse u =
      (-(getDefectsPolar D loop u).1, -(getDefectsPolar D loop u).2) ∧
    getDefectsNematic D loop.reverse u =
      (-(getDefectsNematic D loop u).1, -(getDefectsNematic D loop u).2) := by
  have hp : ∀ f : ℕ → Vec3,
      thetaTot (polarStep f D.normal) loop.reverse =
        -thetaTot (polarStep f D.normal) loop :=
    fun f => thetaTot_reverse _ loop fun a ha b hb =>
      polarStep_antisymm f D.normal a b (hN a ha b hb)
  have hq : ∀ f : ℕ → Vec3,
      thetaTot (nematicStep f D.normal) loop.reverse =
        -thetaTot (nematicStep f D.normal) loop :=
    fun f => thetaTot_reverse _ loop fun a ha b hb =>
      nematicStep_antisymm f D.normal a b (hN a ha b hb)
  constructor
  · unfold getDefectsPolar
    rw [hp D.conf.nval, hp D.conf.vhat]
    cases u <;>
      simp only [neg_div, pyround_neg, Int.cast_neg, if_true, Bool.false_eq_true,
        if_false, neg_zero]
  · unfold getDefectsNematic
    rw [hq D.conf.nval, hq D.conf.vhat]
    cases u <;>
      simp only [neg_div, pyround_neg, Int.cast_neg, if_true, Bool.false_eq_true,
        if_false, neg_zero, Prod.mk.injEq] <;>
      constructor <;> ring_nf

/-- Orientation of the per-point normal in the C7 counterexample: the
normal at point 3 points along `-z`, all others along `+z`. -/
def c7eps (i : ℕ) : ℝ := if i = 3 then -1 else 1

/-- Field angles of the C7 counterexample: `0, pi/2, pi, 5*pi/4`. -/
noncomputable def c7angle (i : ℕ) : ℝ :=
  if i = 0 then 0 else if i = 1 then π / 2 else if i = 2 then π else 5 * π / 4

/-- Geometry of the C7 counterexample: flat, with the tilted normal at
point 3. -/
noncomputable def c7Geom : Geom :=
  { periodic := false
    manifold := "plane"
    R := 1
    ApplyPeriodic12 := fun _ p => p
    UnitNormal := fun _ => fun i => zhat (c7eps i) }

/-- Snapshot of the C7 counterexample. -/
noncomputable def c7Conf : Conf :=
  { rval := fun _ => ⟨1, 0, 0⟩
    nval := fun i => planar (c7angle i)
    vhat := fun _ => ⟨1, 0, 0⟩
    geom := c7Geom }

/-- The `Defects` object of the C7 counterexample, with the single loop
`[0,1,2,3]`. -/
noncomputable def c7D : Defects := Defects.init [[0, 1, 2, 3]] c7Conf

theorem arccos_cos_five_pi_div_four :
    Real.arccos (Real.cos (5 * π / 4)) = 3 * π / 4 := by
  rw [cos_five_pi_div_four, ← cos_three_pi_div_four, arccos_cos_three_pi_div_four]

theorem c7_angle0 : c7angle 0 = 0 := by norm_num [c7angle]

theorem c7_angle1 : c7angle 1 = π / 2 := by norm_num [c7angle]

theorem c7_angle2 : c7angle 2 = π := by norm_num [c7angle]

theorem c7_angle3 : c7angle 3 = 5 * π / 4 := by norm_num [c7angle]

theorem c7_eps0 : c7eps 0 = 1 := by norm_num [c7eps]

theorem c7_eps1 : c7eps 1 = 1 := by norm_num [c7eps]

theorem c7_eps2 : c7eps 2 = 1 := by norm_num [c7eps]

theorem c7_eps3 : c7eps 3 = -1 := by norm_num [c7eps]

theorem c7_key (t0 t : ℕ) :
    polarStep c7D.conf.nval c7D.normal t0 t =
      Real.arccos (Real.cos (c7angle t - c7angle t0)) *
        Real.sign (c7eps t * Real.sin (c7angle t0 - c7angle t)) :=
  polarStep_eval _ _ t0 t (c7angle t) (c7angle t0) (c7eps t) rfl rfl rfl

theorem c7_orig_theta :
    thetaTot (polarStep c7D.conf.nval c7D.normal) [0, 1, 2, 3] = -(3 * π / 2) := by
  have T1 : polarStep c7D.conf.nval c7D.normal 3 0 = -(3 * π / 4) := by
    rw [c7_key 3 0, c7_angle0, c7_angle3, c7_eps0]
    rw [show (0 : ℝ) - 5 * π / 4 = -(5 * π / 4) by ring,
      show 5 * π / 4 - (0 : ℝ) = 5 * π / 4 by ring]
    rw [Real.cos_neg, arccos_cos_five_pi_div_four, one_mul, sin_five_pi_div_four,
      Real.sign_of_neg (by linarith [sqrt2_half_pos])]
    ring
  have T2 : polarStep c7D.conf.nval c7D.normal 0 1 = -(π / 2) := by
    rw [c7_key 0 1, c7_angle1, c7_angle0, c7_eps1]
    rw [show π / 2 - (0 : ℝ) = π / 2 by ring, show (0 : ℝ) - π / 2 = -(π / 2) by ring]
    rw [arccos_cos_pi_div_two, one_mul, Real.sin_neg, Real.sin_pi_div_two,
      Real.sign_of_neg (by norm_num : (-1 : ℝ) < 0)]
    ring
  have T3 : polarStep c7D.conf.nval c7D.normal 1 2 = -(π / 2) := by
    rw [c7_key 1 2, c7_angle2, c7_angle1, c7_eps2]
    rw [show π - π / 2 = π / 2 by ring, show π / 2 - π = -(π / 2) by ring]
    rw [arccos_cos_pi_div_two, one_mul, Real.sin_neg, Real.sin_pi_div_two,
      Real.sign_of_neg (by norm_num : (-1 : ℝ) < 0)]
    ring
  have T4 : polarStep c7D.conf.nval c7D.normal 2 3 = π / 4 := by
    rw [c7_key 2 3, c7_angle3, c7_angle2, c7_eps3]
    rw [show 5 * π / 4 - π = π / 4 by ring, show π - 5 * π / 4 = -(π / 4) by ring]
    rw [arccos_cos_pi_div_four, Real.sin_neg, Real.sin_pi_div_four,
      show (-1 : ℝ) * -(√2 / 2) = √2 / 2 by ring, Real.sign_of_pos sqrt2_half_pos]
    ring
  unfold thetaTot
  rw [show (([0, 1, 2, 3] : List ℕ).getLastD 0) = 3 from rfl]
  simp only [thetaTotAux]
  rw [T1, T2, T3, T4]
  ring

theorem c7_rev_theta :
    thetaTot (polarStep c7D.conf.nval c7D.normal) [3, 2, 1, 0] = π / 2 := by
  have R1 : polarStep c7D.conf.nval c7D.normal 0 3 = -(3 * π / 4) := by
    rw [c7_key 0 3, c7_angle3, c7_angle0, c7_eps3]
    rw [show 5 * π / 4 - (0 : ℝ) = 5 * π / 4 by ring,
      show (0 : ℝ) - 5 * π / 4 = -(5 * π / 4) by ring]
    rw [arccos_cos_five_pi_div_four, Real.sin_neg, sin_five_pi_div_four,
      show (-1 : ℝ) * - -(√2 / 2) = -(√2 / 2) by ring,
      Real.sign_of_neg (by linarith [sqrt2_half_pos])]
    ring
  have R2 : polarStep c7D.conf.nval c7D.normal 3 2 = π / 4 := by
    rw [c7_key 3 2, c7_angle2, c7_angle3, c7_eps2]
    rw [show π - 5 * π / 4 = -(π / 4) by ring, show 5 * π / 4 - π = π / 4 by ring]
    rw [Real.cos_neg, arccos_cos_pi_div_four, one_mul, Real.sin_pi_div_four,
      Real.sign_of_pos sqrt2_half_pos]
    ring
  have R3 : polarStep c7D.conf.nval c7D.normal 2 1 = π / 2 := by
    rw [c7_key 2 1, c7_angle1, c7_angle2, c7_eps1]
    rw [show π / 2 - π = -(π / 2) by ring, show π - π / 2 = π / 2 by ring]
    rw [Real.cos_neg, arccos_cos_pi_div_two, one_mul, Real.sin_pi_div_two,
      Real.sign_of_pos (by norm_num : (0 : ℝ) < 1)]
    ring
  have R4 : polarStep c7D.conf.nval c7D.normal 1 0 = π / 2 := by
    rw [c7_key 1 0, c7_angle0, c7_angle1, c7_eps0]
    rw [show (0 : ℝ) - π / 2 = -(π / 2) by ring, show π / 2 - (0 : ℝ) = π / 2 by ring]
    rw [Real.cos_neg, arccos_cos_pi_div_two, one_mul, Real.sin_pi_div_two,
      Real.sign_of_pos (by norm_num : (0 : ℝ) < 1)]
    ring
  unfold thetaTot
  rw [show (([3, 2, 1, 0] : List ℕ).getLastD 0) = 0 from rfl]
  simp only [thetaTotAux]
  rw [R1, R2, R3, R4]
  ring

theorem c7_orig_eval : getDefectsPolar c7D [0, 1, 2, 3] false = (-1, 0) := by
  unfold getDefectsPolar
  rw [c7_orig_theta,
    show -(3 * π / 2) / (2 * π) = -(3 / 4) by
      rw [div_eq_iff (by positivity : (2 : ℝ) * π ≠ 0)]; ring,
    pyround_neg_three_quarters]
  norm_num

theorem c7_rev_eval : getDefectsPolar c7D [3, 2, 1, 0] false = (0, 0) := by
  unfold getDefectsPolar
  rw [c7_rev_theta,
    show π / 2 / (2 * π) = 1 / 4 by
      rw [div_eq_div_iff (by positivity : (2 : ℝ) * π ≠ 0) (by norm_num : (4 : ℝ) ≠ 0)]
      ring,
    pyround_quarter]
  norm_num

/-- Claim C7 (counterexample): with field angles `0, pi/2, pi, 5*pi/4` and
the normal at point 3 flipped to `(0,0,-1)`, the polar charge of the
reversed loop `[3,2,1,0]` is `0`, not the negation of the original charge
`-1`: the walk evaluates the normal at the current point, which differs
between the two traversal directions. -/
theorem C7_counterexample :
    ¬ ((getDefectsPolar c7D (([0, 1, 2, 3] : List ℕ).reverse) false).1 =
        -(getDefectsPolar c7D [0, 1, 2, 3] false).1) := by
  rw [show (([0, 1, 2, 3] : List ℕ).reverse) = [3, 2, 1, 0] from rfl,
    c7_rev_eval, c7_orig_eval]
  norm_num

/-- Witness for the amended C7: a loop with a uniform normal field, where
reversal does negate both charges of both algorithms. -/
theorem C7_witness :
    getDefectsPolar nemD (([0, 1, 2] : List ℕ).reverse) false =
      (-(getDefectsPolar nemD [0, 1, 2] false).1,
       -(getDefectsPolar nemD [0, 1, 2] false).2) ∧
    getDefectsNematic nemD (([0, 1, 2] : List ℕ).reverse) false =
      (-(getDefectsNematic nemD [0, 1, 2] false).1,
       -(getDefectsNematic nemD [0, 1, 2] false).2) :=
  C7_reversal_uniform_normal nemD [0, 1, 2] false fun _ _ _ _ => rfl

/-! ### Spherical defect positions -/

/-- A stored `defbit` is a charge followed by a position of norm `R`. -/
def posOK (R : ℝ) (b : List ℝ) : Prop :=
  ∃ c x y z, b = [c, x, y, z] ∧ Real.sqrt (x ^ 2 + y ^ 2 + z ^ 2) = R

theorem sumsq_pos_of_ne_zero (v : Vec3) (h : v ≠ Vec3.zero) :
    0 < v.x ^ 2 + v.y ^ 2 + v.z ^ 2 := by
  rcases eq_or_ne v.x 0 with hx | hx
  · rcases eq_or_ne v.y 0 with hy | hy
    · rcases eq_or_ne v.z 0 with hz | hz
      · exact absurd (Vec3.ext hx hy hz) h
      · have := pow_pos (abs_pos.mpr hz) 2
        rw [← sq_abs v.z]
        nlinarith [sq_nonneg v.x, sq_nonneg v.y]
    · have := pow_pos (abs_pos.mpr hy) 2
      rw [← sq_abs v.y]
      nlinarith [sq_nonneg v.x, sq_nonneg v.z]
  · have := pow_pos (abs_pos.mpr hx) 2
    rw [← sq_abs v.x]
    nlinarith [sq_nonneg v.y, sq_nonneg v.z]

theorem defectPos_sphere_norm (D : Defects) (loop : List ℕ)
    (hm : D.conf.geom.manifold = "sphere") (hR : 0 < D.conf.geom.R)
    (hmean : loopMean D loop ≠ Vec3.zero) :
    Real.sqrt ((defectPos D loop).x ^ 2 + (defectPos D loop).y ^ 2 +
      (defectPos D loop).z ^ 2) = D.conf.geom.R := by
  have hsum : 0 < (loopMean D loop).x ^ 2 + (loopMean D loop).y ^ 2 +
      (loopMean D loop).z ^ 2 := sumsq_pos_of_ne_zero _ hmean
  have hrpos : 0 < Real.sqrt ((loopMean D loop).x ^ 2 + (loopMean D loop).y ^ 2 +
      (loopMean D loop).z ^ 2) := Real.sqrt_pos.mpr hsum
  simp only [defectPos, if_pos hm]
  set m := loopMean D loop
  set r := Real.sqrt (m.x ^ 2 + m.y ^ 2 + m.z ^ 2) with hr
  set R := D.conf.geom.R
  show Real.sqrt ((m.x / r * R) ^ 2 + (m.y / r * R) ^ 2 + (m.z / r * R) ^ 2) = R
  rw [show (m.x / r * R) ^ 2 + (m.y / r * R) ^ 2 + (m.z / r * R) ^ 2 =
      (m.x ^ 2 + m.y ^ 2 + m.z ^ 2) * (R / r) ^ 2 by ring]
  rw [Real.sqrt_mul hsum.le, Real.sqrt_sq_eq_abs, abs_of_pos (by positivity), ← hr]
  field_simp

theorem processLoop_posOK (D : Defects) (s : String) (u : Bool)
    (hm : D.conf.geom.manifold = "sphere") (hR : 0 < D.conf.geom.R)
    (g g' : GD) (loop : List ℕ)
    (hmean : loopMean D loop ≠ Vec3.zero)
    (h : processLoop D s u g loop = .ok g')
    (hgn : ∀ b ∈ g.defects_n, posOK D.conf.geom.R b)
    (hgv : ∀ b ∈ g.defects_v, posOK D.conf.geom.R b) :
    (∀ b ∈ g'.defects_n, posOK D.conf.geom.R b) ∧
    (∀ b ∈ g'.defects_v, posOK D.conf.geom.R b) := by
  have hOK : ∀ c : ℝ, posOK D.conf.geom.R (c :: toList (defectPos D loop)) := by
    intro c
    exact ⟨c, (defectPos D loop).x, (defectPos D loop).y, (defectPos D loop).z,
      rfl, defectPos_sphere_norm D loop hm hR hmean⟩
  unfold processLoop at h
  cases hcs : chargeOf D s u loop with
  | error e =>
      rw [hcs] at h
      exact absurd h (by simp [bind, Except.bind])
  | ok cs =>
      rw [hcs] at h
      simp only [bind, Except.bind, pure, Except.pure, Except.ok.injEq] at h
      subst h
      by_cases h1 : 0 < |cs.1| <;> by_cases h2 : u ∧ 0 < |cs.2| <;>
        simp only [if_pos, if_neg, h1, h2, if_true, if_false] <;>
        constructor <;> intro b hb <;>
        first
          | exact hgn b hb
          | exact hgv b hb
          | (rcases List.mem_append.mp hb with hb' | hb'
             · first
                 | exact hgn b hb'
                 | exact hgv b hb'
             · rw [List.mem_singleton.mp hb']
               exact hOK _)

theorem foldlM_posOK (D : Defects) (s : String) (u : Bool)
    (hm : D.conf.geom.manifold = "sphere") (hR : 0 < D.conf.geom.R) :
    ∀ (ls : List (List ℕ)), (∀ loop ∈ ls, loopMean D loop ≠ Vec3.zero) →
      ∀ (g g' : GD), List.foldlM (processLoop D s u) g ls = .ok g' →
        (∀ b ∈ g.defects_n, posOK D.conf.geom.R b) →
        (∀ b ∈ g.defects_v, posOK D.conf.geom.R b) →
        (∀ b ∈ g'.defects_n, posOK D.conf.geom.R b) ∧
        (∀ b ∈ g'.defects_v, posOK D.conf.geom.R b) := by
  intro ls
  induction ls with
  | nil =>
      intro _ g g' h hgn hgv
      have : g = g' := by simpa [pure, Except.pure] using h
      subst this
      exact ⟨hgn, hgv⟩
  | cons l ls ih =>
      intro hmean g g' h hgn hgv
      rw [List.foldlM_cons] at h
      cases hp : processLoop D s u g l with
      | error e =>
          rw [hp] at h
          exact absurd h (by simp [bind, Except.bind])
      | ok g1 =>
          rw [hp] at h
          simp only [bind, Except.bind] at h
          obtain ⟨h1n, h1v⟩ := processLoop_posOK D s u hm hR g g1 l
            (hmean l (List.mem_cons_self l ls)) hp hgn hgv
          exact ih (fun loop hl => hmean loop (List.mem_cons_of_mem l hl)) g1 g' h h1n h1v

/-- Claim C6 (amended): on a spherical manifold of radius `R > 0`, provided
every loop's (periodic-unwrapped) centroid is nonzero, every defect position
recorded by `getDefects` — orientation and velocity alike — has Euclidean
norm exactly `R`: the centroid is rescaled to the sphere with its direction
preserved. -/
theorem C6_sphere_positions (D : Defects) (s : String) (u : Bool)
    (D1 : Defects) (dn dv : List (List ℝ)) (nn nv : ℕ)
    (hm : D.conf.geom.manifold = "sphere") (hR : 0 < D.conf.geom.R)
    (hmean : ∀ loop ∈ D.LoopList, loopMean D loop ≠ Vec3.zero)
    (h : getDefects D s u = .ok (D1, dn, dv, nn, nv)) :
    (∀ b ∈ dn, posOK D.conf.geom.R b) ∧ (∀ b ∈ dv, posOK D.conf.geom.R b) := by
  unfold getDefects at h
  cases hf : D.LoopList.foldlM (processLoop D s u) ⟨0, 0, [], [], 0, 0⟩ with
  | error e =>
      rw [hf] at h
      exact absurd h (by simp [bind, Except.bind])
  | ok g =>
      rw [hf] at h
      simp only [bind, Except.bind, pure, Except.pure, Except.ok.injEq] at h
      have hdn : dn = g.defects_n := by
        have := congrArg (fun p => p.2.1) h
        simpa using this.symm
      have hdv : dv = g.defects_v := by
        have := congrArg (fun p => p.2.2.1) h
        simpa using this.symm
      subst hdn
      subst hdv
      exact foldlM_posOK D s u hm hR D.LoopList hmean _ g hf
        (fun b hb => absurd hb (List.not_mem_nil b))
        (fun b hb => absurd hb (List.not_mem_nil b))

/-- Spherical geometry of radius 1 with a constant `(0,0,1)` normal
field. -/
noncomputable def sphereGeom : Geom :=
  { periodic := false
    manifold := "sphere"
    R := 1
    ApplyPeriodic12 := fun _ p => p
    UnitNormal := fun _ => fun _ => zhat 1 }

/-- Positions for the C6 counterexample: three antipodal pairs on the unit
sphere, whose centroid is the origin. -/
noncomputable def sphereRval (i : ℕ) : Vec3 :=
  if i = 0 then ⟨1, 0, 0⟩
  else if i = 1 then ⟨-1, 0, 0⟩
  else if i = 2 then ⟨0, 1, 0⟩
  else if i = 3 then ⟨0, -1, 0⟩
  else if i = 4 then ⟨0, 0, 1⟩
  else ⟨0, 0, -1⟩

/-- C6 counterexample snapshot: canonical nematic directors on a unit
sphere with a zero-centroid loop. -/
noncomputable def sphereConf : Conf :=
  { rval := sphereRval
    nval := fun i => planar ((i : ℝ) * (π / 6))
    vhat := fun _ => ⟨1, 0, 0⟩
    geom := sphereGeom }

/-- The `Defects` object for the C6 counterexample. -/
noncomputable def sphereD : Defects := Defects.init [[0, 1, 2, 3, 4, 5]] sphereConf

/-- C6 witness snapshot: same directors, all loop positions at `(1,0,0)`
(nonzero centroid). -/
noncomputable def goodSphereConf : Conf :=
  { rval := fun _ => ⟨1, 0, 0⟩
    nval := fun i => planar ((i : ℝ) * (π / 6))
    vhat := fun _ => ⟨1, 0, 0⟩
    geom := sphereGeom }

/-- The `Defects` object for the C6 witness. -/
noncomputable def goodSphereD : Defects :=
  Defects.init [[0, 1, 2, 3, 4, 5]] goodSphereConf

theorem sphereD_mean : loopMean sphereD [0, 1, 2, 3, 4, 5] = ⟨0, 0, 0⟩ := by
  have hper : sphereD.conf.geom.periodic = false := rfl
  simp only [loopMean, hper]
  rw [if_neg (by decide : ¬((false : Bool) = true))]
  rw [show sphereD.conf.rval = sphereRval from rfl]
  simp only [List.map_cons, List.map_nil]
  rw [show sphereRval 0 = ⟨1, 0, 0⟩ by norm_num [sphereRval],
    show sphereRval 1 = ⟨-1, 0, 0⟩ by norm_num [sphereRval],
    show sphereRval 2 = ⟨0, 1, 0⟩ by norm_num [sphereRval],
    show sphereRval 3 = ⟨0, -1, 0⟩ by norm_num [sphereRval],
    show sphereRval 4 = ⟨0, 0, 1⟩ by norm_num [sphereRval],
    show sphereRval 5 = ⟨0, 0, -1⟩ by norm_num [sphereRval]]
  simp only [vsum, List.foldr_cons, List.foldr_nil, vadd, Vec3.zero, smul,
    List.length_cons, List.length_nil]
  ext <;> norm_num

theorem goodSphereD_mean : loopMean goodSphereD [0, 1, 2, 3, 4, 5] = ⟨1, 0, 0⟩ := by
  have hper : goodSphereD.conf.geom.periodic = false := rfl
  simp only [loopMean, hper]
  rw [if_neg (by decide : ¬((false : Bool) = true))]
  rw [show goodSphereD.conf.rval = fun _ => (⟨1, 0, 0⟩ : Vec3) from rfl]
  simp only [List.map_cons, List.map_nil, vsum, List.foldr_cons, List.foldr_nil,
    vadd, Vec3.zero, smul, List.length_cons, List.length_nil]
  ext <;> norm_num

theorem sphereD_pos : defectPos sphereD [0, 1, 2, 3, 4, 5] = ⟨0, 0, 0⟩ := by
  simp only [defectPos, sphereD_mean]
  rw [if_pos (show sphereD.conf.geom.manifold = "sphere" from rfl)]
  ext <;> norm_num

theorem goodSphereD_pos : defectPos goodSphereD [0, 1, 2, 3, 4, 5] = ⟨1, 0, 0⟩ := by
  have hR : goodSphereD.conf.geom.R = 1 := rfl
  simp only [defectPos, goodSphereD_mean, hR]
  rw [if_pos (show goodSphereD.conf.geom.manifold = "sphere" from rfl)]
  ext <;> norm_num

theorem sphereD_charge :
    getDefectsNematic sphereD [0, 1, 2, 3, 4, 5] false = (-(1 / 2), 0) := by
  rw [getDefectsNematic_congr sphereD nemD [0, 1, 2, 3, 4, 5] false rfl rfl rfl]
  exact C2_canonical_eval

theorem goodSphereD_charge :
    getDefectsNematic goodSphereD [0, 1, 2, 3, 4, 5] false = (-(1 / 2), 0) := by
  rw [getDefectsNematic_congr goodSphereD nemD [0, 1, 2, 3, 4, 5] false rfl rfl rfl]
  exact C2_canonical_eval

theorem run_one_nematic (D : Defects) (loop : List ℕ) (p : Vec3)
    (hL : D.LoopList = [loop])
    (hch : getDefectsNematic D loop false = (-(1 / 2), 0))
    (hpos : defectPos D loop = p) :
    getDefects D "nematic" false =
      .ok ({ D with
              numdefect_n := 1
              numdefect_v := 0
              defects_n := [[-(1 / 2), p.x, p.y, p.z]]
              defects_v := [] },
           [[-(1 / 2), p.x, p.y, p.z]], [], 1, 0) := by
  have hPL : processLoop D "nematic" false ⟨0, 0, [], [], 0, 0⟩ loop =
      .ok ⟨0 + -(1 / 2), 0, [[-(1 / 2), p.x, p.y, p.z]], [], 0 + 1, 0⟩ := by
    unfold processLoop chargeOf
    rw [if_neg (by decide : ¬(("nematic" : String) = "oldnematic")),
      if_neg (by decide : ¬(("nematic" : String) = "polar")),
      if_pos (rfl : ("nematic" : String) = "nematic"), hch]
    simp only [bind, Except.bind, pure, Except.pure]
    rw [if_pos (by norm_num : (0 : ℝ) < |(-(1 / 2) : ℝ)|)]
    rw [if_neg (by simp : ¬(((false : Bool) = true) ∧ (0 : ℝ) < |(0 : ℝ)|))]
    rw [hpos]
    rfl
  unfold getDefects
  rw [hL, List.foldlM_cons, hPL]
  simp only [List.foldlM_nil, bind, Except.bind, pure, Except.pure]

/-- Claim C6 (counterexample): on a spherical snapshot of radius `R = 1`
whose single loop consists of three antipodal position pairs (centroid at
the origin), `getDefects` records a defect whose position is `(0,0,0)`,
of norm `0 ≠ R`: the rescaling divides by a zero magnitude. -/
theorem C6_counterexample :
    getDefects sphereD "nematic" false =
      .ok ({ sphereD with
              numdefect_n := 1
              numdefect_v := 0
              defects_n := [[-(1 / 2), 0, 0, 0]]
              defects_v := [] },
           [[-(1 / 2), 0, 0, 0]], [], 1, 0) ∧
    sphereD.conf.geom.manifold = "sphere" ∧
    (0 : ℝ) < sphereD.conf.geom.R ∧
    Real.sqrt ((0 : ℝ) ^ 2 + 0 ^ 2 + 0 ^ 2) ≠ sphereD.conf.geom.R := by
  refine ⟨?_, rfl, ?_, ?_⟩
  · exact run_one_nematic sphereD [0, 1, 2, 3, 4, 5] ⟨0, 0, 0⟩ rfl
      sphereD_charge sphereD_pos
  · rw [show sphereD.conf.geom.R = 1 from rfl]
    norm_num
  · rw [show sphereD.conf.geom.R = 1 from rfl]
    norm_num

/-- Witness for the amended C6: a spherical snapshot whose loop centroid is
nonzero; the single recorded defect position `(1,0,0)` has norm `R = 1`. -/
theorem C6_witness :
    ((0 : ℝ) < goodSphereD.conf.geom.R ∧
      ∀ loop ∈ goodSphereD.LoopList, loopMean goodSphereD loop ≠ Vec3.zero) ∧
    (∀ b ∈ [[-(1 / 2), (1 : ℝ), 0, 0]], posOK goodSphereD.conf.geom.R b) ∧
    (∀ b ∈ ([] : List (List ℝ)), posOK goodSphereD.conf.geom.R b) := by
  have hrun := run_one_nematic goodSphereD [0, 1, 2, 3, 4, 5] ⟨1, 0, 0⟩ rfl
    goodSphereD_charge goodSphereD_pos
  have hmean : ∀ loop ∈ goodSphereD.LoopList,
      loopMean goodSphereD loop ≠ Vec3.zero := by
    intro loop hl
    rw [List.mem_singleton.mp hl, goodSphereD_mean]
    intro hEq
    simpa [Vec3.zero] using congrArg Vec3.x hEq
  have hR : (0 : ℝ) < goodSphereD.conf.geom.R := by
    rw [show goodSphereD.conf.geom.R = 1 from rfl]
    norm_num
  exact ⟨⟨hR, hmean⟩,
    C6_sphere_positions goodSphereD "nematic" false
      ({ goodSphereD with
          numdefect_n := 1
          numdefect_v := 0
          defects_n := [[-(1 / 2), 1, 0, 0]]
          defects_v := [] })
      [[-(1 / 2), 1, 0, 0]] [] 1 0 rfl hR hmean hrun⟩
